import Mathlib

/-
  Verification of the ever-assembler code-emission engine against its
  natural-language specification.

  The development shallowly embeds:
  - the PUSHINT big-endian octet-stream codec (decoder taken from
    src/tests/test_convert.rs, encoder modelled from the spec since the
    convert module itself is not among the provided sources);
  - the cell writer CodePage0 (src/writer.rs);
  - the debug structures DbgPos, DbgNode, DbgInfo (src/debug.rs).

  Machine integers are modelled as Nat (with explicit reductions modulo
  2^32 where the Rust u32 arithmetic wraps) and num::BigInt as Int.
-/

namespace Asm

/-! ## PUSHINT integer codec -/

/-- Modelled from the spec: whether the integer fits in a signed
two's-complement field of the given width, i.e. whether it lies in
the interval from minus 2 to the width minus 1 up to 2 to the width
minus 1, exclusive. -/
def fitsSigned (n : Int) (bits : Nat) : Bool :=
  decide (-((2 : Int) ^ (bits - 1)) ≤ n) && decide (n < (2 : Int) ^ (bits - 1))

/-- Modelled from the spec: the search for the minimal total byte length
of the PUSHINT encoding.  A total length of L bytes carries a payload of
8 * L - 5 bits (3 payload bits share the first byte with the 5-bit length
field).  The search starts at the 3-byte minimum and increments; the fuel
bounds the search at 33 bytes, the largest length the 5-bit field can
declare for a value inside the 257-bit envelope. -/
def byteLenSearch : Nat → Nat → Int → Nat
  | 0, l, _ => l
  | fuel + 1, l, n => if fitsSigned n (8 * l - 5) then l else byteLenSearch fuel (l + 1) n

/-- Big-endian byte string of the low 8 * k bits of a natural number:
the first byte holds bits 8 * k - 1 down to 8 * (k - 1). -/
def bytesBE : Nat → Nat → List Nat
  | 0, _ => []
  | k + 1, p => (p >>> (8 * k)) % 256 :: bytesBE k p

/-- Modelled from the spec: the PUSHINT encoder to_big_endian_octet_string.
The convert module that defines it is not among the provided sources (only
its tests in src/tests/test_convert.rs are).  Following spec section 4.1:
the value is encoded in byte_len total bytes, byte_len at least 3; the
first byte carries the length as (byte_len - 3) shifted left by 3 in its
bits 3..7 and the top three bits of the two's-complement payload in its
bits 0..2; the remaining byte_len - 1 bytes are the big-endian tail of
the payload.  Encoding returns none on overflow.  The overflow envelope
is taken as the 257-bit two's-complement range (values from minus 2^256
to 2^256 - 1), the boundary pinned down by the repository's tests
decimal_from_str_256_bit_positive, decimal_from_str_256_bit_negative_2
and decimal_from_str_overflow; the spec's prose gives conflicting bounds
(259 bits in section 4.1, 2^255 in section 8) and the tests are taken as
authoritative. -/
def to_big_endian_octet_string (n : Int) : Option (List Nat) :=
  if fitsSigned n 257 then
    let byteLen := byteLenSearch 30 3 n
    let pb := 8 * byteLen - 5
    let p := (n % ((2 : Int) ^ pb)).toNat
    some ((((byteLen - 3) <<< 3) ||| (p >>> (8 * (byteLen - 1)))) :: bytesBE (byteLen - 1) p)
  else
    none

/-- The first loop of from_big_endian_octet_stream: shift the next byte
into the running u32 value (value <<= 8; value |= get_next_byte()?),
repeated the given number of times.  The left shift wraps modulo 2^32 as
the Rust u32 shift does.  Returns none when the stream is exhausted,
matching the callback's error. -/
def readBE32 : Nat → Nat → List Nat → Option (Nat × List Nat)
  | 0, v, bs => some (v, bs)
  | _ + 1, _, [] => none
  | k + 1, v, b :: bs => readBE32 k (((v <<< 8) % 4294967296) ||| b) bs

/-- The second loop of from_big_endian_octet_stream: read groups of four
bytes, each combined big-endian into one u32 digit
((b1 << 24) | (b2 << 16) | (b3 << 8) | b4).  The digits are returned in
read order, which is most-significant first: the Rust stores them into
the digit vector from index last - 1 down to 0. -/
def readDigits : Nat → List Nat → Option (List Nat × List Nat)
  | 0, bs => some ([], bs)
  | k + 1, b1 :: b2 :: b3 :: b4 :: bs =>
    match readDigits k bs with
    | none => none
    | some (ds, rest) => some (((b1 <<< 24) ||| ((b2 <<< 16) ||| ((b3 <<< 8) ||| b4))) :: ds, rest)
  | _ + 1, _ => none

/-- Shallow embedding of from_big_endian_octet_stream from
src/tests/test_convert.rs.  The Rust reads bytes from a fallible
callback; here the stream is a list and exhaustion yields none.  The u32
digit vector digits (little-endian, index 0 least significant, with
digits[digit_count - 1] the value accumulated by the first loop) is
represented by its base-2^32 value, obtained by folding the
most-significant-first digit list onto that accumulated value; the
in-place twos_complement of the digit vector performed for negative signs
is the arithmetic complement modulo 2^(32 * digit_count), and
BigInt::new(sign, digits) is the signed integer with that magnitude. -/
def from_big_endian_octet_stream (bytes : List Nat) : Option Int :=
  match bytes with
  | [] => none
  | first_byte :: rest =>
    let byte_len := ((first_byte &&& 248) >>> 3) + 3
    let greatest3bits := first_byte &&& 7
    let digit_count := (byte_len + 3) >>> 2
    let value0 := if greatest3bits &&& 4 == 0 then greatest3bits else 4294967288 ||| greatest3bits
    let upper := if byte_len &&& 3 == 0 then 4 else byte_len &&& 3
    match readBE32 (upper - 1) value0 rest with
    | none => none
    | some (vlast, rest2) =>
      match readDigits (digit_count - 1) rest2 with
      | none => none
      | some (ds, _) =>
        let mag := ds.foldl (fun u d => u * 4294967296 + d) vlast
        if greatest3bits &&& 4 == 0 then
          some (Int.ofNat mag)
        else
          some (-(Int.ofNat ((2 ^ (32 * digit_count) - mag % 2 ^ (32 * digit_count)) %
            2 ^ (32 * digit_count))))

/-! ## Debug positions and debug nodes (src/debug.rs) -/

/-- DbgPos from src/debug.rs: a source position.  Lean structure equality
coincides with the derived PartialEq, which compares all three fields;
the serde skip attribute on line_code affects only serialisation. -/
structure DbgPos where
  filename : String
  line : Nat
  line_code : Nat
deriving DecidableEq

/-- Insertion into the sorted association list modelling
BTreeMap<usize, DbgPos>: keeps keys strictly ascending and replaces the
value on an existing key, as BTreeMap::insert does. -/
def insertOffset (k : Nat) (v : DbgPos) : List (Nat × DbgPos) → List (Nat × DbgPos)
  | [] => [(k, v)]
  | (k1, v1) :: rest =>
    if k < k1 then (k, v) :: (k1, v1) :: rest
    else if k = k1 then (k, v) :: rest
    else (k1, v1) :: insertOffset k v rest

/-- DbgNode from src/debug.rs: an offset map (BTreeMap modelled as a
sorted association list) and an ordered list of child nodes. -/
inductive DbgNode where
  | mk (offsets : List (Nat × DbgPos)) (children : List DbgNode)

def DbgNode.offsets : DbgNode → List (Nat × DbgPos)
  | .mk o _ => o

def DbgNode.children : DbgNode → List DbgNode
  | .mk _ c => c

/-- Modelled from the spec: DbgNode::new() is used by the writer
(src/writer.rs) but its definition is not among the provided sources; per
the spec's data model (section 3) a fresh node is empty. -/
def DbgNode.new : DbgNode := .mk [] []

/-- Modelled from the spec: DbgNode::append(offset, pos), used by the
writer, records offset -> pos in the node's offset map (spec 4.2.2,
"record (offset -> pos)"); BTreeMap::insert replaces an existing entry. -/
def DbgNode.append (d : DbgNode) (offset : Nat) (pos : DbgPos) : DbgNode :=
  .mk (insertOffset offset pos d.offsets) d.children

/-- DbgNode::append_node from src/debug.rs, totalised: the source asserts
children.len() < 4 and then pushes; the assertion is tracked by the Built
predicate below, the push is children.push(dbg). -/
def DbgNode.append_node (d : DbgNode) (c : DbgNode) : DbgNode :=
  .mk d.offsets (d.children ++ [c])

/-- DbgNode::inline_node from src/debug.rs: insert every entry of dbg with
its key shifted by offset, then append dbg's children via append_node. -/
def DbgNode.inline_node (d : DbgNode) (offset : Nat) (dbg : DbgNode) : DbgNode :=
  .mk (dbg.offsets.foldl (fun acc e => insertOffset (e.1 + offset) e.2 acc) d.offsets)
    (d.children ++ dbg.children)

/-- DbgNode::from_ext from src/debug.rs: offsets hold the single entry
0 -> pos, the children are the given list, with no guard on its length. -/
def DbgNode.from_ext (pos : DbgPos) (dbgs : List DbgNode) : DbgNode :=
  .mk [(0, pos)] dbgs

/-- DbgNode::from from src/debug.rs: from_ext with no children. -/
def DbgNode.fromPos (pos : DbgPos) : DbgNode :=
  DbgNode.from_ext pos []

/-! ## Cells and builders (external ton_types, spec section 3) -/

/-- An immutable cell: payload and up to four ordered child references.
The writer appends only whole bytes (command.len() * 8 bits), so the
payload is modelled at byte granularity and bits_used is 8 * length.  The
256-bit content hash is deterministic and injective on content, so hash
equality is modelled as structural cell equality. -/
inductive Cell where
  | mk (data : List Nat) (refs : List Cell)

def Cell.data : Cell → List Nat
  | .mk d _ => d

def Cell.refs : Cell → List Cell
  | .mk _ r => r

mutual
/-- Structural (content) equality of cells, standing in for equality of
the 256-bit content hashes. -/
def cellBEq : Cell → Cell → Bool
  | .mk d1 r1, .mk d2 r2 => (d1 == d2) && cellBEqList r1 r2
/-- Pointwise cellBEq on reference lists. -/
def cellBEqList : List Cell → List Cell → Bool
  | [], [] => true
  | c :: cs, d :: ds => cellBEq c d && cellBEqList cs ds
  | _, _ => false
end

instance : DecidableEq Cell := fun a b =>
  decidable_of_iff (cellBEq a b = true) (by
    have main : ∀ n, ∀ a b : Cell, sizeOf a ≤ n → (cellBEq a b = true ↔ a = b) := by
      intro n
      induction n with
      | zero =>
        intro a b h
        exfalso
        cases a
        simp at h
      | succ n ih =>
        intro a b hle
        cases a with
        | mk d1 r1 =>
          cases b with
          | mk d2 r2 =>
            have hr1 : ∀ c ∈ r1, sizeOf c ≤ n := by
              intro c hc
              have h1 := List.sizeOf_lt_of_mem hc
              simp at hle
              omega
            have hlist : ∀ l1 : List Cell, (∀ c ∈ l1, sizeOf c ≤ n) →
                ∀ l2, (cellBEqList l1 l2 = true ↔ l1 = l2) := by
              intro l1
              induction l1 with
              | nil =>
                intro _ l2
                cases l2 <;> simp [cellBEqList]
              | cons c cs ihl =>
                intro hs l2
                cases l2 with
                | nil => simp [cellBEqList]
                | cons e es =>
                  rw [cellBEqList]
                  simp only [Bool.and_eq_true, List.cons.injEq]
                  rw [ih c e (hs c (by simp)), ihl (fun x hx => hs x (by simp [hx])) es]
            rw [cellBEq]
            simp only [Bool.and_eq_true, beq_iff_eq, Cell.mk.injEq]
            rw [hlist r1 hr1 r2]
    exact main (sizeOf a) a b (Nat.le_refl _))

/-- Cell::references_count. -/
def Cell.references_count (c : Cell) : Nat := c.refs.length

/-- Modelled from the spec: BuilderData, the external ton_types mutable
builder, specified in section 3 by the contracts the emitter relies on:
the same capacity limits as a cell (1023 payload bits, 4 references). -/
structure BuilderData where
  data : List Nat
  refs : List Cell
deriving DecidableEq

def BuilderData.new : BuilderData := ⟨[], []⟩

/-- Modelled from the spec: bits_used queries the appended payload; all
appends are whole bytes. -/
def BuilderData.bits_used (b : BuilderData) : Nat := 8 * b.data.length

/-- Modelled from the spec: references_free is the number of unused
reference slots out of four. -/
def BuilderData.references_free (b : BuilderData) : Nat := 4 - b.refs.length

/-- Modelled from the spec: append_raw(command, command.len() * 8) appends
the bytes when the 1023-bit capacity is not exceeded, and fails
otherwise. -/
def BuilderData.append_raw (b : BuilderData) (command : List Nat) : Option BuilderData :=
  if 8 * b.data.length + 8 * command.length ≤ 1023 then
    some ⟨b.data ++ command, b.refs⟩
  else
    none

/-- Modelled from the spec: finalising a builder into a cell keeps the
payload and the references. -/
def BuilderData.toCell (b : BuilderData) : Cell := .mk b.data b.refs

/-- Modelled from the spec: checked_append_reference succeeds exactly when
a reference slot is free. -/
def BuilderData.checked_append_reference (b : BuilderData) (c : Cell) : Option BuilderData :=
  if b.refs.length < 4 then some ⟨b.data, b.refs ++ [c]⟩ else none

/-- Modelled from the spec: the unchecked append_reference used by
finalize, which consumes the reserved slot unconditionally (spec 4.2.3). -/
def BuilderData.append_reference (b : BuilderData) (child : BuilderData) : BuilderData :=
  ⟨b.data, b.refs ++ [child.toCell]⟩

/-! ## The code writer (src/writer.rs) -/

inductive OperationError where
  | NotFitInSlice
deriving DecidableEq

/-- CodePage0 from src/writer.rs: two parallel lists of builders and debug
nodes; the current pair is the last element of each. -/
structure CodePage0 where
  cells : List BuilderData
  dbg : List DbgNode

/-- CodePage0::new. -/
def CodePage0.new : CodePage0 := ⟨[BuilderData.new], [DbgNode.new]⟩

/-- The fall-through of write_command: try a fresh empty builder; on
success push the new pair, otherwise fail with NotFitInSlice leaving the
state unchanged. -/
def write_command_overflow (s : CodePage0) (command : List Nat) (dbg : DbgNode) :
    Except OperationError Unit × CodePage0 :=
  match BuilderData.new.append_raw command with
  | some code => (.ok (), ⟨s.cells ++ [code], s.dbg ++ [dbg]⟩)
  | none => (.error .NotFitInSlice, s)

/-- CodePage0::write_command from src/writer.rs.  The Rust mutates self
and returns Result<(), OperationError>; here the next state is returned
alongside the result, and the error branch returns the state unchanged.
The Rust checks only that cells is nonempty and then unwraps
dbg.last_mut(); on the writer's reachable states the two lists have equal
length, and the model takes the in-place branch exactly when both lasts
exist. -/
def write_command (s : CodePage0) (command : List Nat) (dbg : DbgNode) :
    Except OperationError Unit × CodePage0 :=
  match s.cells.getLast?, s.dbg.getLast? with
  | some last, some dnode =>
    match last.append_raw command with
    | some last2 =>
      (.ok (), ⟨s.cells.dropLast ++ [last2],
        s.dbg.dropLast ++ [dnode.inline_node last.bits_used dbg]⟩)
    | none => write_command_overflow s command dbg
  | _, _ => write_command_overflow s command dbg

/-- The fall-through of write_composite_command: a fresh builder takes the
opcode and the reference; the fresh debug node records pos at offset 0 and
the incoming dbg as its single child. -/
def write_composite_overflow (s : CodePage0) (command : List Nat)
    (reference : BuilderData) (pos : DbgPos) (dbg : DbgNode) :
    Except OperationError Unit × CodePage0 :=
  match BuilderData.new.append_raw command with
  | some code =>
    match code.checked_append_reference reference.toCell with
    | some code2 =>
      (.ok (), ⟨s.cells ++ [code2], s.dbg ++ [(DbgNode.new.append 0 pos).append_node dbg]⟩)
    | none => (.error .NotFitInSlice, s)
  | none => (.error .NotFitInSlice, s)

/-- CodePage0::write_composite_command from src/writer.rs.  The source
clones the current builder, requires references_free() > 1 (one slot
stays reserved for finalisation) and both appends to succeed, and only
then writes the clone back; the debug node records pos at the opcode
offset, inlines a childless stub copy of dbg at the offset just past the
opcode bytes, and appends dbg's children as siblings. -/
def write_composite_command (s : CodePage0) (command : List Nat)
    (reference : BuilderData) (pos : DbgPos) (dbg : DbgNode) :
    Except OperationError Unit × CodePage0 :=
  match s.cells.getLast?, s.dbg.getLast? with
  | some last, some dnode =>
    if 1 < last.references_free then
      match last.append_raw command with
      | some l2 =>
        match l2.checked_append_reference reference.toCell with
        | some l3 =>
          (.ok (), ⟨s.cells.dropLast ++ [l3],
            s.dbg.dropLast ++
              [dbg.children.foldl (fun d c => d.append_node c)
                ((dnode.append last.bits_used pos).inline_node
                  (last.bits_used + 8 * command.length) (DbgNode.mk dbg.offsets []))]⟩)
        | none => write_composite_overflow s command reference pos dbg
      | none => write_composite_overflow s command reference pos dbg
    else write_composite_overflow s command reference pos dbg
  | _, _ => write_composite_overflow s command reference pos dbg

/-- The loop of CodePage0::finalize, with the two lists already reversed
(pop-from-back becomes head-first recursion): each earlier builder
appends the cursor as its last reference and the cursor's node as its
last child. -/
def finalizeAux : List BuilderData → List DbgNode → BuilderData → DbgNode →
    BuilderData × DbgNode
  | [], _, cursor, dn => (cursor, dn)
  | _ :: _, [], cursor, dn => (cursor, dn)
  | c :: cs, d :: ds, cursor, dn =>
    finalizeAux cs ds (c.append_reference cursor) (d.append_node dn)

/-- CodePage0::finalize from src/writer.rs.  The Rust panics when the cell
list is empty; the writer always starts with one pair, and the model
returns an empty pair in that unreachable case. -/
def CodePage0.finalize (s : CodePage0) : BuilderData × DbgNode :=
  match s.cells.reverse, s.dbg.reverse with
  | c :: cs, d :: ds => finalizeAux cs ds c d
  | _, _ => (BuilderData.new, DbgNode.new)

/-- Reference chaining in emission order: each builder takes the chain of
the later builders as its last reference (spec 4.2.3). -/
def chainRefs : BuilderData → List BuilderData → BuilderData
  | b, [] => b
  | b, c :: cs => b.append_reference (chainRefs c cs)

/-- Debug-node chaining in emission order: each node takes the chain of
the later nodes as its last child. -/
def chainDbg : DbgNode → List DbgNode → DbgNode
  | d, [] => d
  | d, e :: es => d.append_node (chainDbg e es)

/-- The payload stream along the spine: the cell's bytes followed, while
fuel remains, by the stream of its last reference. -/
def spineCells : Nat → Cell → List Nat
  | 0, c => c.data
  | k + 1, c =>
    c.data ++ (match c.refs.getLast? with
      | some child => spineCells k child
      | none => [])

/-! ## DbgInfo (src/debug.rs) -/

/-- The DbgInfo map from cell hash to offset map; hashes are modelled by
the cells themselves (the content hash is deterministic and injective on
content), so the map is an association list keyed by cells. -/
abbrev DbgMap := List (Cell × List (Nat × DbgPos))

/-- Lookup by key, first match wins. -/
def dbgLookup : DbgMap → Cell → Option (List (Nat × DbgPos))
  | [], _ => none
  | (k, v) :: rest, c => if k = c then some v else dbgLookup rest c

/-- BTreeMap::entry(hash).or_insert_with(..) / or_insert(..): insert only
when the key is absent, never overwrite. -/
def insertIfAbsent (m : DbgMap) (c : Cell) (v : List (Nat × DbgPos)) : DbgMap :=
  match dbgLookup m c with
  | some _ => m
  | none => m ++ [(c, v)]

/-- Lookup in an offset map, first match wins. -/
def offLookup : List (Nat × DbgPos) → Nat → Option DbgPos
  | [], _ => none
  | (k, v) :: rest, k0 => if k = k0 then some v else offLookup rest k0

mutual
/-- DbgInfo::collect from src/debug.rs: record the node's offsets for the
cell's hash if the hash is absent, then recurse into the references paired
with the node's children in order.  The Rust indexes dbg.children[i] for
each reference and would panic if the node had fewer children; the model
stops pairing there (unreachable when the writer's pairing invariant
holds). -/
def collect (m : DbgMap) : Cell → DbgNode → DbgMap
  | .mk data rs, d => collectList (insertIfAbsent m (.mk data rs) d.offsets) rs d.children
/-- The reference loop of DbgInfo::collect. -/
def collectList (m : DbgMap) : List Cell → List DbgNode → DbgMap
  | [], _ => m
  | _ :: _, [] => m
  | c :: cs, d :: ds => collectList (collect m c d) cs ds
end

/-- Invariant 1 of the spec checked to a given depth: a node attached to a
cell has exactly as many children as the cell has references and every
recorded offset lies below the cell's bits_used, recursively on the paired
references and children. -/
def cellDbgWfFuel : Nat → Cell → DbgNode → Bool
  | 0, _, _ => true
  | fuel + 1, c, d =>
    (d.children.length == c.refs.length) &&
    (d.offsets.all fun e => e.1 < 8 * c.data.length) &&
    ((c.refs.zip d.children).all fun pr => cellDbgWfFuel fuel pr.1 pr.2)

/-- A writer state the assembler reaches on an accepted program: 126 bytes
of one-byte instructions fill the current builder to 1008 of its 1023
bits, then a two-byte composite instruction carrying a one-byte child
(CALLREF with body NOP) no longer fits and takes the fresh-builder path
of write_composite_command. -/
def compositeFreshTrace : CodePage0 :=
  (write_composite_command
    (write_command CodePage0.new (List.replicate 126 0)
      (DbgNode.fromPos ⟨"sample.code", 1, 1⟩)).2
    [219, 60] ⟨[0], []⟩ ⟨"sample.code", 127, 127⟩
    (DbgNode.mk [] [DbgNode.mk [(0, ⟨"sample.code", 128, 128⟩)] []])).2

/-- The DbgNode values constructible through the mutating operations with
every append_node guarded by the source's assertion children.len() < 4;
from_ext carries the amended guard of at most four children.  inline_node
performs one guarded append per child of the inlined node. -/
inductive Built : DbgNode → Prop
  | new : Built DbgNode.new
  | append (d : DbgNode) (offset : Nat) (pos : DbgPos) :
      Built d → Built (d.append offset pos)
  | append_node (d c : DbgNode) :
      Built d → d.children.length < 4 → Built (d.append_node c)
  | inline_node (d : DbgNode) (offset : Nat) (dbg : DbgNode) :
      Built d → d.children.length + dbg.children.length ≤ 4 →
      Built (d.inline_node offset dbg)
  | from_ext (pos : DbgPos) (dbgs : List DbgNode) :
      dbgs.length ≤ 4 → Built (DbgNode.from_ext pos dbgs)

/-- The public constructions as the source has them: from_ext places an
arbitrary list of children with no guard. -/
inductive BuiltPub : DbgNode → Prop
  | new : BuiltPub DbgNode.new
  | append (d : DbgNode) (offset : Nat) (pos : DbgPos) :
      BuiltPub d → BuiltPub (d.append offset pos)
  | append_node (d c : DbgNode) :
      BuiltPub d → d.children.length < 4 → BuiltPub (d.append_node c)
  | inline_node (d : DbgNode) (offset : Nat) (dbg : DbgNode) :
      BuiltPub d → d.children.length + dbg.children.length ≤ 4 →
      BuiltPub (d.inline_node offset dbg)
  | from_ext (pos : DbgPos) (dbgs : List DbgNode) : BuiltPub (DbgNode.from_ext pos dbgs)

/-! ### Bit-level helper lemmas -/

theorem testBit_mul_pow_add (a b k i : Nat) (hb : b < 2 ^ k) :
    (a * 2 ^ k + b).testBit i = if i < k then b.testBit i else a.testBit (i - k) := by
  rcases Nat.lt_or_ge i k with h | h
  · rw [if_pos h]
    have e1 : a * 2 ^ k + b = b + a * 2 ^ (k - i) * 2 ^ i := by
      have hk : k - i + i = k := by omega
      rw [Nat.mul_assoc, ← Nat.pow_add, hk]
      ring
    have e2 : (a * 2 ^ k + b) / 2 ^ i = b / 2 ^ i + a * 2 ^ (k - i) := by
      rw [e1, Nat.add_mul_div_right _ _ (Nat.pow_pos (by norm_num))]
    have e3 : a * 2 ^ (k - i) = a * 2 ^ (k - i - 1) * 2 := by
      rw [Nat.mul_assoc, ← Nat.pow_succ]
      congr 2
      omega
    simp only [Nat.testBit_to_div_mod, e2, e3, Nat.add_mul_mod_self_right]
  · rw [if_neg (by omega)]
    have e4 : (a * 2 ^ k + b) / 2 ^ i = a / 2 ^ (i - k) := by
      have h2i : (2 : Nat) ^ i = 2 ^ k * 2 ^ (i - k) := by
        rw [← Nat.pow_add]
        congr 1
        omega
      rw [h2i, ← Nat.div_div_eq_div_mul]
      congr 1
      rw [Nat.add_comm, Nat.add_mul_div_right _ _ (Nat.pow_pos (by norm_num)),
        Nat.div_eq_of_lt hb, Nat.zero_add]
    simp only [Nat.testBit_to_div_mod, e4]

theorem lor_eq_add (k a b : Nat) (hb : b < 2 ^ k) : (a <<< k) ||| b = a * 2 ^ k + b := by
  apply Nat.eq_of_testBit_eq
  intro i
  rw [Nat.testBit_lor, Nat.testBit_shiftLeft, testBit_mul_pow_add a b k i hb]
  rcases Nat.lt_or_ge i k with h | h
  · simp [Nat.not_le.mpr h, h]
  · rw [if_neg (by omega)]
    have hb2 : b < 2 ^ i := lt_of_lt_of_le hb (Nat.pow_le_pow_right (by norm_num) h)
    simp [Nat.le_of_lt, h, Nat.testBit_lt_two_pow hb2]

set_option maxRecDepth 100000 in
theorem and248_and7 : ∀ x < 256, x &&& 248 = 8 * (x / 8) ∧ x &&& 7 = x % 8 := by decide

set_option maxRecDepth 10000 in
theorem and3_eq_mod4 : ∀ x < 34, x &&& 3 = x % 4 := by decide

theorem and4_beq_zero : ∀ t < 8, (t &&& 4 == 0) = decide (t < 4) := by decide

theorem lor_fff8 : ∀ t < 8, 4294967288 ||| t = 4294967288 + t := by decide

/-! ### Properties of the byte-stream readers -/

theorem bytesBE_length (k p : Nat) : (bytesBE k p).length = k := by
  induction k generalizing p with
  | zero => rfl
  | succ k ih => simp [bytesBE, ih]

theorem bytesBE_split (a b p : Nat) :
    bytesBE (a + b) p = bytesBE a (p >>> (8 * b)) ++ bytesBE b p := by
  induction a generalizing p with
  | zero =>
    rw [Nat.zero_add]
    rfl
  | succ a ih =>
    have h1 : a + 1 + b = (a + b) + 1 := by ring
    rw [h1, bytesBE, bytesBE, ih, List.cons_append]
    congr 2
    rw [Nat.shiftRight_eq_div_pow, Nat.shiftRight_eq_div_pow, Nat.shiftRight_eq_div_pow,
      Nat.div_div_eq_div_mul, ← Nat.pow_add]
    congr 2
    ring

theorem mod_pow_split (p a b : Nat) :
    p % 2 ^ (a + b) = (p / 2 ^ a % 2 ^ b) * 2 ^ a + p % 2 ^ a := by
  rw [Nat.pow_add, Nat.mod_mul]
  ring

theorem readBE32_bytesBE (k : Nat) :
    ∀ v p tl, v < 4294967296 →
      readBE32 k v (bytesBE k p ++ tl) =
        some ((v * 2 ^ (8 * k) + p % 2 ^ (8 * k)) % 4294967296, tl) := by
  induction k with
  | zero =>
    intro v p tl hv
    simp [bytesBE, readBE32, Nat.mod_one, Nat.mod_eq_of_lt hv]
  | succ k ih =>
    intro v p tl hv
    rw [bytesBE, List.cons_append, readBE32]
    have hhd : (p >>> (8 * k)) % 256 < 256 := Nat.mod_lt _ (by norm_num)
    have hstep : (v <<< 8) % 4294967296 ||| (p >>> (8 * k)) % 256 =
        v % 16777216 * 256 + (p >>> (8 * k)) % 256 := by
      have h256 : (v <<< 8) % 4294967296 = (v % 16777216) <<< 8 := by
        rw [Nat.shiftLeft_eq, Nat.shiftLeft_eq, show ((2 : Nat) ^ 8) = 256 by norm_num,
          show (4294967296 : Nat) = 16777216 * 256 by norm_num, Nat.mul_mod_mul_right]
      rw [h256, lor_eq_add 8 (v % 16777216) _ hhd, show ((2 : Nat) ^ 8) = 256 by norm_num]
    have hv1 : v % 16777216 * 256 + (p >>> (8 * k)) % 256 < 4294967296 := by
      have := Nat.mod_lt v (show 0 < 16777216 by norm_num)
      omega
    rw [hstep, ih _ p tl hv1]
    have hF : p % 2 ^ (8 * (k + 1)) = (p >>> (8 * k)) % 256 * 2 ^ (8 * k) + p % 2 ^ (8 * k) := by
      rw [Nat.shiftRight_eq_div_pow, show 8 * (k + 1) = 8 * k + 8 by ring,
        mod_pow_split p (8 * k) 8]
      norm_num
    have hsplit : v % 16777216 * 256 + v / 16777216 * 4294967296 = v * 256 := by omega
    have key : (v % 16777216 * 256 + (p >>> (8 * k)) % 256) * 2 ^ (8 * k) + p % 2 ^ (8 * k)
        + v / 16777216 * 2 ^ (8 * k) * 4294967296
        = v * 2 ^ (8 * (k + 1)) + p % 2 ^ (8 * (k + 1)) := by
      rw [hF]
      have e1 : (v % 16777216 * 256 + (p >>> (8 * k)) % 256) * 2 ^ (8 * k) + p % 2 ^ (8 * k)
          + v / 16777216 * 2 ^ (8 * k) * 4294967296
          = (v % 16777216 * 256 + v / 16777216 * 4294967296 + (p >>> (8 * k)) % 256) *
              2 ^ (8 * k) + p % 2 ^ (8 * k) := by ring
      rw [e1, hsplit, show 8 * (k + 1) = 8 * k + 8 by ring, Nat.pow_add]
      ring
    rw [← key, Nat.add_mul_mod_self_right]

theorem readDigits_bytesBE (k : Nat) :
    ∀ p tl, ∃ ds,
      readDigits k (bytesBE (4 * k) p ++ tl) = some (ds, tl) ∧
      ∀ v, ds.foldl (fun u d => u * 4294967296 + d) v = v * 2 ^ (32 * k) + p % 2 ^ (32 * k) := by
  induction k with
  | zero =>
    intro p tl
    refine ⟨[], rfl, ?_⟩
    intro v
    simp [Nat.mod_one]
  | succ k ih =>
    intro p tl
    obtain ⟨ds, hds, hfold⟩ := ih p tl
    have hpeel : bytesBE (4 * (k + 1)) p =
        (p >>> (8 * (4 * k + 3))) % 256 :: (p >>> (8 * (4 * k + 2))) % 256 ::
        (p >>> (8 * (4 * k + 1))) % 256 :: (p >>> (8 * (4 * k))) % 256 ::
        bytesBE (4 * k) p := by
      rw [show 4 * (k + 1) = (4 * k + 3) + 1 by ring, bytesBE,
        show 4 * k + 3 = (4 * k + 2) + 1 by ring, bytesBE,
        show 4 * k + 2 = (4 * k + 1) + 1 by ring, bytesBE,
        show 4 * k + 1 = (4 * k) + 1 by ring, bytesBE]
    set q := p / 2 ^ (32 * k) with hq
    have hb4 : (p >>> (8 * (4 * k))) % 256 = q % 256 := by
      rw [Nat.shiftRight_eq_div_pow, hq, show 8 * (4 * k) = 32 * k by ring]
    have hb3 : (p >>> (8 * (4 * k + 1))) % 256 = q / 2 ^ 8 % 256 := by
      rw [Nat.shiftRight_eq_div_pow, hq, Nat.div_div_eq_div_mul, ← Nat.pow_add,
        show 32 * k + 8 = 8 * (4 * k + 1) by ring]
    have hb2 : (p >>> (8 * (4 * k + 2))) % 256 = q / 2 ^ 16 % 256 := by
      rw [Nat.shiftRight_eq_div_pow, hq, Nat.div_div_eq_div_mul, ← Nat.pow_add,
        show 32 * k + 16 = 8 * (4 * k + 2) by ring]
    have hb1 : (p >>> (8 * (4 * k + 3))) % 256 = q / 2 ^ 24 % 256 := by
      rw [Nat.shiftRight_eq_div_pow, hq, Nat.div_div_eq_div_mul, ← Nat.pow_add,
        show 32 * k + 24 = 8 * (4 * k + 3) by ring]
    have h4 : q % 256 < 2 ^ 8 := Nat.mod_lt _ (by norm_num)
    have hin1 : (q / 2 ^ 8 % 256) <<< 8 ||| q % 256 = q % 2 ^ 16 := by
      rw [lor_eq_add 8 _ _ h4, show (256 : Nat) = 2 ^ 8 by norm_num,
        ← mod_pow_split q 8 8]
    have hin1lt : q % 2 ^ 16 < 2 ^ 16 := Nat.mod_lt _ (by norm_num)
    have hin2 : (q / 2 ^ 16 % 256) <<< 16 ||| q % 2 ^ 16 = q % 2 ^ 24 := by
      rw [lor_eq_add 16 _ _ hin1lt, show (256 : Nat) = 2 ^ 8 by norm_num,
        ← mod_pow_split q 16 8]
    have hin2lt : q % 2 ^ 24 < 2 ^ 24 := Nat.mod_lt _ (by norm_num)
    have hin3 : (q / 2 ^ 24 % 256) <<< 24 ||| q % 2 ^ 24 = q % 2 ^ 32 := by
      rw [lor_eq_add 24 _ _ hin2lt, show (256 : Nat) = 2 ^ 8 by norm_num,
        ← mod_pow_split q 24 8]
    refine ⟨q % 2 ^ 32 :: ds, ?_, ?_⟩
    · rw [hpeel, List.cons_append, List.cons_append, List.cons_append, List.cons_append,
        readDigits, hds, hb1, hb2, hb3, hb4, hin1, hin2, hin3]
    · intro v
      have : (q % 2 ^ 32 :: ds).foldl (fun u d => u * 4294967296 + d) v =
          ds.foldl (fun u d => u * 4294967296 + d) (v * 4294967296 + q % 2 ^ 32) := rfl
      rw [this, hfold]
      have hmps : p % 2 ^ (32 * (k + 1)) = q % 2 ^ 32 * 2 ^ (32 * k) + p % 2 ^ (32 * k) := by
        rw [show 32 * (k + 1) = 32 * k + 32 by ring, mod_pow_split p (32 * k) 32, hq]
      rw [hmps, show (4294967296 : Nat) = 2 ^ 32 by norm_num,
        show 32 * (k + 1) = 32 * k + 32 by ring, Nat.pow_add]
      ring

/-! ### Properties of the byte-length search -/

theorem fitsSigned_mono {n : Int} {a b : Nat} (h : a ≤ b) (hf : fitsSigned n a = true) :
    fitsSigned n b = true := by
  simp only [fitsSigned, Bool.and_eq_true, decide_eq_true_eq] at hf ⊢
  have hpow : (2 : Int) ^ (a - 1) ≤ 2 ^ (b - 1) :=
    pow_le_pow_right₀ (by norm_num) (by omega)
  exact ⟨le_trans (by linarith) hf.1, lt_of_lt_of_le hf.2 hpow⟩

theorem byteLenSearch_ge (fuel : Nat) : ∀ l n, l ≤ byteLenSearch fuel l n := by
  induction fuel with
  | zero => intro l n; exact Nat.le_refl l
  | succ fuel ih =>
    intro l n
    rw [byteLenSearch]
    split
    · exact Nat.le_refl l
    · exact Nat.le_trans (Nat.le_succ l) (ih (l + 1) n)

theorem byteLenSearch_le (fuel : Nat) : ∀ l n, byteLenSearch fuel l n ≤ l + fuel := by
  induction fuel with
  | zero => intro l n; exact Nat.le_refl l
  | succ fuel ih =>
    intro l n
    rw [byteLenSearch]
    split
    · omega
    · have := ih (l + 1) n
      omega

theorem byteLenSearch_fits (fuel : Nat) :
    ∀ l n, fitsSigned n (8 * (l + fuel) - 5) = true →
      fitsSigned n (8 * byteLenSearch fuel l n - 5) = true := by
  induction fuel with
  | zero => intro l n h; exact h
  | succ fuel ih =>
    intro l n h
    rw [byteLenSearch]
    split
    · assumption
    · exact ih (l + 1) n (by rw [show l + 1 + fuel = l + (fuel + 1) by ring]; exact h)

/-! ### The codec round trip -/

/-- C1: for every integer that the PUSHINT big-endian octet-stream codec
encodes, decoding the produced byte string with from_big_endian_octet_stream
yields the integer again: decode(encode(n)) = n for every encodable n. -/
theorem pushint_roundtrip (n : Int) (bs : List Nat)
    (h : to_big_endian_octet_string n = some bs) :
    from_big_endian_octet_stream bs = some n := by
  simp only [to_big_endian_octet_string] at h
  by_cases h257 : fitsSigned n 257 = true
  swap
  · rw [if_neg h257] at h
    exact absurd h (by simp)
  rw [if_pos h257] at h
  set L := byteLenSearch 30 3 n with hLdef
  have hL3 : 3 ≤ L := byteLenSearch_ge 30 3 n
  have hL33 : L ≤ 33 := byteLenSearch_le 30 3 n
  have hfits : fitsSigned n (8 * L - 5) = true :=
    byteLenSearch_fits 30 3 n (fitsSigned_mono (by norm_num) h257)
  set pb := 8 * L - 5 with hpbdef
  set p := (n % ((2 : Int) ^ pb)).toNat with hpdef
  simp only [fitsSigned, Bool.and_eq_true, decide_eq_true_eq] at hfits
  obtain ⟨hn_lb, hn_ub⟩ := hfits
  have hpbpos : (0 : Int) < 2 ^ pb := by positivity
  have hpcast : (p : Int) = n % 2 ^ pb :=
    Int.toNat_of_nonneg (Int.emod_nonneg n (by positivity))
  have hplt : p < 2 ^ pb := by
    have h1 : n % (2 : Int) ^ pb < 2 ^ pb := Int.emod_lt_of_pos n hpbpos
    rw [← hpcast] at h1
    exact_mod_cast h1
  have hpb3 : pb = 8 * (L - 1) + 3 := by omega
  set t := p >>> (8 * (L - 1)) with htdef
  have ht_div : t = p / 2 ^ (8 * (L - 1)) := Nat.shiftRight_eq_div_pow p _
  have htlt : t < 8 := by
    rw [ht_div, Nat.div_lt_iff_lt_mul (Nat.pow_pos (by norm_num))]
    calc p < 2 ^ pb := hplt
      _ = 8 * 2 ^ (8 * (L - 1)) := by rw [hpb3, Nat.pow_add]; ring
  have hb0 : (L - 3) <<< 3 ||| t = 8 * (L - 3) + t := by
    rw [lor_eq_add 3 _ _ (by norm_num [htlt] : t < 2 ^ 3)]
    norm_num
    omega
  have hb0lt : 8 * (L - 3) + t < 256 := by omega
  -- payload facts split by sign
  have hsign : (0 ≤ n ∧ (p : Int) = n ∧ p < 2 ^ (pb - 1)) ∨
      (n < 0 ∧ (p : Int) = n + 2 ^ pb ∧ 2 ^ (pb - 1) ≤ p) := by
    have h2half : (2 : Int) ^ pb = 2 ^ (pb - 1) * 2 := by
      rw [← pow_succ]
      congr 1
      omega
    rcases le_or_lt 0 n with hn | hn
    · left
      have hlt : n < 2 ^ pb := by
        calc n < 2 ^ (pb - 1) := hn_ub
          _ ≤ 2 ^ pb := by rw [h2half]; nlinarith [pow_pos (show (0:Int) < 2 by norm_num) (pb - 1)]
      have : (p : Int) = n := by rw [hpcast, Int.emod_eq_of_lt hn hlt]
      refine ⟨hn, this, ?_⟩
      have : (p : Int) < 2 ^ (pb - 1) := by rw [this]; exact hn_ub
      exact_mod_cast this
    · right
      have hmod : n % (2 : Int) ^ pb = n + 2 ^ pb := by
        have e1 : (n + 2 ^ pb) % (2 : Int) ^ pb = n % 2 ^ pb := by
          rw [show n + (2 : Int) ^ pb = n + 2 ^ pb * 1 by ring, Int.add_mul_emod_self_left]
        have e2 : (n + (2 : Int) ^ pb) % 2 ^ pb = n + 2 ^ pb := by
          apply Int.emod_eq_of_lt
          · have : -((2 : Int) ^ pb) ≤ n := by
              have : (2 : Int) ^ (pb - 1) ≤ 2 ^ pb := by
                rw [h2half]
                nlinarith [pow_pos (show (0:Int) < 2 by norm_num) (pb - 1)]
              linarith
            linarith
          · linarith
        rw [← e1, e2]
      have hcast : (p : Int) = n + 2 ^ pb := by rw [hpcast, hmod]
      refine ⟨hn, hcast, ?_⟩
      have : (2 : Int) ^ (pb - 1) ≤ (p : Int) := by
        rw [hcast, h2half]
        have := pow_pos (show (0:Int) < 2 by norm_num) (pb - 1)
        linarith
      exact_mod_cast this
  -- decode the produced stream
  rw [Option.some.injEq] at h
  subst h
  clear_value L pb p t
  simp only [from_big_endian_octet_stream]
  rw [hb0]
  have hand248 : (8 * (L - 3) + t) &&& 248 = 8 * ((8 * (L - 3) + t) / 8) :=
    (and248_and7 _ hb0lt).1
  have hand7 : (8 * (L - 3) + t) &&& 7 = (8 * (L - 3) + t) % 8 :=
    (and248_and7 _ hb0lt).2
  have hbl : ((8 * (L - 3) + t) &&& 248) >>> 3 + 3 = L := by
    rw [hand248, Nat.shiftRight_eq_div_pow]
    have h8 : (2 : Nat) ^ 3 = 8 := by norm_num
    rw [h8]
    omega
  have hg3 : (8 * (L - 3) + t) &&& 7 = t := by
    rw [hand7]
    omega
  simp only [hbl, hg3]
  have hdc : (L + 3) >>> 2 = (L + 3) / 4 := by
    rw [Nat.shiftRight_eq_div_pow]
  set m := (L + 3) / 4 - 1 with hmdef
  have hdc1 : (L + 3) >>> 2 = m + 1 := by rw [hdc]; omega
  simp only [hdc1, and3_eq_mod4 L (by omega)]
  set U : Nat := if (L % 4 == 0) = true then 4 else L % 4 with hUdef
  have hU : 1 ≤ U ∧ U ≤ 4 ∧ L - 1 = (U - 1) + 4 * m := by
    by_cases h4 : L % 4 = 0
    · rw [hUdef]
      simp only [h4, Nat.zero_mod, beq_self_eq_true, if_true]
      omega
    · rw [hUdef]
      have : (L % 4 == 0) = false := by simp [h4]
      rw [this]
      simp only [Bool.false_eq_true, if_false]
      omega
  obtain ⟨hU1, hU4, hLsplit⟩ := hU
  set q := p >>> (32 * m) with hqdef
  have hq_div : q = p / 2 ^ (32 * m) := Nat.shiftRight_eq_div_pow p _
  have hsplitL : bytesBE (L - 1) p = bytesBE (U - 1) q ++ bytesBE (4 * m) p := by
    rw [hLsplit, bytesBE_split (U - 1) (4 * m) p, hqdef, show 8 * (4 * m) = 32 * m by ring]
  clear_value m U q
  have hpbm : pb = 32 * m + (8 * (U - 1) + 3) := by omega
  have hqlt : q < 8 * 2 ^ (8 * (U - 1)) := by
    rw [hq_div, Nat.div_lt_iff_lt_mul (Nat.pow_pos (by norm_num))]
    calc p < 2 ^ pb := hplt
      _ = 8 * 2 ^ (8 * (U - 1)) * 2 ^ (32 * m) := by
          rw [hpbm, Nat.pow_add, Nat.pow_add]
          ring
  have htq : t = q / 2 ^ (8 * (U - 1)) := by
    rw [ht_div, hq_div, Nat.div_div_eq_div_mul, ← Nat.pow_add]
    congr 2
    omega
  have htq_add : t * 2 ^ (8 * (U - 1)) + q % 2 ^ (8 * (U - 1)) = q := by
    rw [htq, Nat.mul_comm]
    exact Nat.div_add_mod q _
  have hUlow : 8 * (U - 1) ≤ 24 := by omega
  have hqlt32 : q < 4294967296 := by
    have h8 : (8 : Nat) * 2 ^ (8 * (U - 1)) ≤ 8 * 2 ^ 24 := by
      have := Nat.pow_le_pow_right (show 0 < 2 by norm_num) hUlow
      omega
    omega
  simp only [hsplitL]
  obtain ⟨ds, hds, hfold⟩ := readDigits_bytesBE m p (bytesBE 0 0)
  rw [show bytesBE 0 0 = [] from rfl, List.append_nil] at hds
  rcases hsign with ⟨hn0, hpn, hpsmall⟩ | ⟨hn0, hpn, hpbig⟩
  · -- nonnegative: sign bit clear
    have ht4 : t < 4 := by
      rw [ht_div, Nat.div_lt_iff_lt_mul (Nat.pow_pos (by norm_num))]
      calc p < 2 ^ (pb - 1) := hpsmall
        _ = 4 * 2 ^ (8 * (L - 1)) := by
            rw [show pb - 1 = 8 * (L - 1) + 2 by omega, Nat.pow_add]
            ring
    simp only [and4_beq_zero t htlt, show decide (t < 4) = true from decide_eq_true ht4,
      if_true]
    have hv0 : t < 4294967296 := by omega
    rw [readBE32_bytesBE (U - 1) t q (bytesBE (4 * m) p) hv0, htq_add,
      Nat.mod_eq_of_lt hqlt32]
    dsimp only
    simp only [Nat.add_sub_cancel]
    rw [hds]
    dsimp only
    rw [hfold q]
    have hmagp : q * 2 ^ (32 * m) + p % 2 ^ (32 * m) = p := by
      rw [hq_div, Nat.mul_comm]
      exact Nat.div_add_mod p _
    rw [hmagp, Option.some.injEq]
    exact_mod_cast hpn
  · -- negative: sign bit set
    have ht4 : ¬ t < 4 := by
      rw [ht_div]
      have h4le : 4 * 2 ^ (8 * (L - 1)) ≤ p := by
        calc 4 * 2 ^ (8 * (L - 1)) = 2 ^ (pb - 1) := by
              rw [show pb - 1 = 8 * (L - 1) + 2 by omega, Nat.pow_add]
              ring
          _ ≤ p := hpbig
      have h4d : 4 ≤ p / 2 ^ (8 * (L - 1)) :=
        (Nat.le_div_iff_mul_le (Nat.pow_pos (by norm_num))).mpr (by linarith)
      omega
    simp only [and4_beq_zero t htlt, show decide (t < 4) = false from decide_eq_false ht4,
      Bool.false_eq_true, if_false]
    have hfff8 : 4294967288 ||| t = 4294967288 + t := lor_fff8 t htlt
    rw [hfff8]
    have hv0 : 4294967288 + t < 4294967296 := by omega
    rw [readBE32_bytesBE (U - 1) (4294967288 + t) q (bytesBE (4 * m) p) hv0]
    have hXadd : ((4294967288 + t) * 2 ^ (8 * (U - 1)) + q % 2 ^ (8 * (U - 1)))
        = 4294967288 * 2 ^ (8 * (U - 1)) + q := by
      calc (4294967288 + t) * 2 ^ (8 * (U - 1)) + q % 2 ^ (8 * (U - 1))
          = 4294967288 * 2 ^ (8 * (U - 1)) +
              (t * 2 ^ (8 * (U - 1)) + q % 2 ^ (8 * (U - 1))) := by ring
        _ = 4294967288 * 2 ^ (8 * (U - 1)) + q := by rw [htq_add]
    rw [hXadd]
    have hvlast : (4294967288 * 2 ^ (8 * (U - 1)) + q) % 4294967296 + 8 * 2 ^ (8 * (U - 1))
        = 4294967296 + q := by
      have hu1 : U - 1 = 0 ∨ U - 1 = 1 ∨ U - 1 = 2 ∨ U - 1 = 3 := by omega
      rcases hu1 with h | h | h | h <;> rw [h] at hqlt ⊢ <;> norm_num at hqlt ⊢ <;> omega
    dsimp only
    simp only [Nat.add_sub_cancel]
    rw [hds]
    dsimp only
    rw [hfold]
    -- assemble the magnitude
    have hmag_add : (4294967288 * 2 ^ (8 * (U - 1)) + q) % 4294967296 * 2 ^ (32 * m) +
        p % 2 ^ (32 * m) + 2 ^ pb = 2 ^ (32 * (m + 1)) + p := by
      have hp_split : q * 2 ^ (32 * m) + p % 2 ^ (32 * m) = p := by
        rw [hq_div, Nat.mul_comm]
        exact Nat.div_add_mod p _
      have hpb_pow : (2 : Nat) ^ pb = 8 * 2 ^ (8 * (U - 1)) * 2 ^ (32 * m) := by
        rw [hpbm, Nat.pow_add, Nat.pow_add]
        ring
      have h32 : (2 : Nat) ^ (32 * (m + 1)) = 4294967296 * 2 ^ (32 * m) := by
        rw [show 32 * (m + 1) = 32 + 32 * m by ring, Nat.pow_add]
      calc (4294967288 * 2 ^ (8 * (U - 1)) + q) % 4294967296 * 2 ^ (32 * m) +
            p % 2 ^ (32 * m) + 2 ^ pb
          = ((4294967288 * 2 ^ (8 * (U - 1)) + q) % 4294967296 + 8 * 2 ^ (8 * (U - 1))) *
              2 ^ (32 * m) + p % 2 ^ (32 * m) := by
            rw [hpb_pow]
            ring
        _ = (4294967296 + q) * 2 ^ (32 * m) + p % 2 ^ (32 * m) := by rw [hvlast]
        _ = 4294967296 * 2 ^ (32 * m) + (q * 2 ^ (32 * m) + p % 2 ^ (32 * m)) := by ring
        _ = 2 ^ (32 * (m + 1)) + p := by rw [hp_split, h32]
    set mag := (4294967288 * 2 ^ (8 * (U - 1)) + q) % 4294967296 * 2 ^ (32 * m) +
        p % 2 ^ (32 * m) with hmagdef
    have hpble : (2 : Nat) ^ pb ≤ 2 ^ (32 * (m + 1)) := by
      apply Nat.pow_le_pow_right (by norm_num)
      omega
    have hmag_lt : mag < 2 ^ (32 * (m + 1)) := by
      have hppos : 0 < 2 ^ pb := by positivity
      omega
    have hppos : 0 < p := by
      have h1 : (0 : Int) < 2 ^ (pb - 1) := by positivity
      have h2 : (0 : Int) < (p : Int) := by
        have : ((2 : Nat) ^ (pb - 1) : Int) ≤ (p : Int) := by exact_mod_cast hpbig
        have hc : ((2 : Nat) ^ (pb - 1) : Int) = (2 : Int) ^ (pb - 1) := by push_cast; ring
        omega
      exact_mod_cast h2
    rw [Nat.mod_eq_of_lt hmag_lt, Option.some.injEq]
    have hsub : (2 : Nat) ^ (32 * (m + 1)) - mag = 2 ^ pb - p := by omega
    have hsub_lt : (2 : Nat) ^ pb - p < 2 ^ (32 * (m + 1)) := by omega
    rw [hsub, Nat.mod_eq_of_lt hsub_lt]
    have hfinal : ((2 ^ pb - p : Nat) : Int) = -n := by
      have hle : p ≤ 2 ^ pb := Nat.le_of_lt hplt
      push_cast [hle]
      rw [hpn]  -- hmm (p:Int) inside
      ring
    rw [show Int.ofNat (2 ^ pb - p) = ((2 ^ pb - p : Nat) : Int) from rfl, hfinal, neg_neg]

set_option maxRecDepth 100000 in
/-- Witness for pushint_roundtrip: the encoder maps 7 to the three-byte
string 00 00 07 and the decoder maps it back. -/
theorem pushint_roundtrip_witness :
    to_big_endian_octet_string 7 = some [0, 0, 7] ∧
      from_big_endian_octet_stream [0, 0, 7] = some 7 :=
  ⟨by decide, pushint_roundtrip 7 [0, 0, 7] (by decide)⟩

set_option maxRecDepth 100000 in
set_option exponentiation.threshold 400 in
/-- C2 counterexample: the claim states that PUSHINT 2^255 must overflow,
but the encoder produces a byte string for 2^255; the repository's tests
place the overflow boundary at 2^256 instead. -/
theorem pushint_envelope_counterexample :
    (to_big_endian_octet_string (2 ^ 255)).isSome = true := by decide

set_option maxRecDepth 100000 in
set_option exponentiation.threshold 400 in
/-- C2 amended: PUSHINT encoding returns no value exactly for integers
outside the 257-bit two's-complement envelope, that is, below -(2^256) or
at least 2^256; in particular 2^256 - 1 encodes, 2^256 overflows, -(2^256)
encodes and -(2^256) - 1 overflows. -/
theorem pushint_envelope :
    (∀ n : Int, to_big_endian_octet_string n = none ↔
      n < -(2 ^ 256) ∨ (2 : Int) ^ 256 ≤ n) ∧
    (to_big_endian_octet_string ((2 : Int) ^ 256 - 1)).isSome = true ∧
    to_big_endian_octet_string ((2 : Int) ^ 256) = none ∧
    (to_big_endian_octet_string (-((2 : Int) ^ 256))).isSome = true ∧
    to_big_endian_octet_string (-((2 : Int) ^ 256) - 1) = none := by
  refine ⟨?_, by decide, by decide, by decide, by decide⟩
  intro n
  have hfs : fitsSigned n 257 = true ↔ (-((2 : Int) ^ 256) ≤ n ∧ n < 2 ^ 256) := by
    rw [fitsSigned]
    simp only [Bool.and_eq_true, decide_eq_true_eq]
  rw [to_big_endian_octet_string]
  by_cases h : fitsSigned n 257 = true
  · rw [if_pos h]
    constructor
    · intro hc
      exact absurd hc (by simp)
    · intro hc
      rw [hfs] at h
      exfalso
      omega
  · rw [if_neg h]
    rw [hfs] at h
    constructor
    · intro _
      omega
    · intro _
      rfl



@[simp] theorem DbgNode.children_mk (o : List (Nat × DbgPos)) (c : List DbgNode) :
    (DbgNode.mk o c).children = c := rfl

@[simp] theorem DbgNode.offsets_mk (o : List (Nat × DbgPos)) (c : List DbgNode) :
    (DbgNode.mk o c).offsets = o := rfl

/-- C8 counterexample: two positions equal in filename and line but with
different line_code are not equal under the derived PartialEq. -/
theorem dbgpos_eq_counterexample :
    ¬ (((⟨"", 0, 0⟩ : DbgPos) = ⟨"", 0, 1⟩) ↔
      ((⟨"", 0, 0⟩ : DbgPos).filename = (⟨"", 0, 1⟩ : DbgPos).filename ∧
        (⟨"", 0, 0⟩ : DbgPos).line = (⟨"", 0, 1⟩ : DbgPos).line)) := by
  simp

/-- C8 amended: DbgPos equality compares all three fields. -/
theorem dbgpos_eq_iff (p q : DbgPos) :
    p = q ↔ (p.filename = q.filename ∧ p.line = q.line ∧ p.line_code = q.line_code) := by
  cases p
  cases q
  simp

/-- C9 counterexample: from_ext is a public constructor with no guard, so a
node with five children is reachable. -/
theorem dbgnode_children_counterexample :
    ¬ (∀ d : DbgNode, BuiltPub d → d.children.length ≤ 4) := by
  intro h
  have hb : BuiltPub (DbgNode.from_ext ⟨"", 0, 0⟩
      [DbgNode.new, DbgNode.new, DbgNode.new, DbgNode.new, DbgNode.new]) :=
    BuiltPub.from_ext _ _
  have h5 := h _ hb
  simp [DbgNode.from_ext, DbgNode.children] at h5

/-- C9 amended: every node built through the guarded operations has at most
four children. -/
theorem dbgnode_children_le (d : DbgNode) (h : Built d) : d.children.length ≤ 4 := by
  induction h with
  | new => simp [DbgNode.new, DbgNode.children]
  | append d offset pos _ ih => simpa [DbgNode.append, DbgNode.children] using ih
  | append_node d c _ hlt ih =>
    simp only [DbgNode.append_node, DbgNode.children_mk, List.length_append,
      List.length_singleton]
    omega
  | inline_node d offset dbg _ hle ih =>
    simp only [DbgNode.inline_node, DbgNode.children_mk, List.length_append]
    omega
  | from_ext pos dbgs hle => simpa [DbgNode.from_ext, DbgNode.children] using hle

/-- Witness for dbgnode_children_le. -/
theorem dbgnode_children_le_witness :
    (DbgNode.new.append_node DbgNode.new).children.length ≤ 4 :=
  dbgnode_children_le _ (Built.append_node _ _ Built.new (by
    simp [DbgNode.new, DbgNode.children]))

/-- Lookup survives appending a fresh entry at the back. -/
theorem dbgLookup_append (m : DbgMap) (c : Cell) (v : List (Nat × DbgPos)) (c0 : Cell)
    (w : List (Nat × DbgPos)) (h : dbgLookup m c0 = some w) :
    dbgLookup (m ++ [(c, v)]) c0 = some w := by
  induction m with
  | nil => simp [dbgLookup] at h
  | cons kv rest ih =>
    obtain ⟨k1, v1⟩ := kv
    rw [List.cons_append, dbgLookup]
    rw [dbgLookup] at h
    by_cases h1 : k1 = c0
    · rw [if_pos h1] at h ⊢
      exact h
    · rw [if_neg h1] at h ⊢
      exact ih h

/-- insertIfAbsent never disturbs an existing entry. -/
theorem dbgLookup_insertIfAbsent (m : DbgMap) (c : Cell) (v : List (Nat × DbgPos))
    (c0 : Cell) (w : List (Nat × DbgPos)) (h : dbgLookup m c0 = some w) :
    dbgLookup (insertIfAbsent m c v) c0 = some w := by
  rw [insertIfAbsent]
  cases hm : dbgLookup m c with
  | some _ => exact h
  | none => exact dbgLookup_append m c v c0 w h

/-- C7: DbgInfo::collect keeps every entry already present in the map
unchanged; a later occurrence of the same hash never overwrites an earlier
entry. -/
theorem collect_keeps (c : Cell) (d : DbgNode) (m : DbgMap) (c0 : Cell)
    (w : List (Nat × DbgPos)) (h : dbgLookup m c0 = some w) :
    dbgLookup (collect m c d) c0 = some w := by
  have main : ∀ N, ∀ c : Cell, sizeOf c ≤ N → ∀ d : DbgNode, ∀ m : DbgMap,
      dbgLookup m c0 = some w → dbgLookup (collect m c d) c0 = some w := by
    intro N
    induction N with
    | zero =>
      intro c hle
      exfalso
      cases c
      simp at hle
    | succ N ih =>
      intro c hle d m hm
      cases c with
      | mk data rs =>
        rw [collect]
        have hrs : ∀ x ∈ rs, sizeOf x ≤ N := by
          intro x hx
          have h1 := List.sizeOf_lt_of_mem hx
          simp at hle
          omega
        have hlist : ∀ l : List Cell, (∀ x ∈ l, sizeOf x ≤ N) →
            ∀ (ds : List DbgNode) (m1 : DbgMap), dbgLookup m1 c0 = some w →
              dbgLookup (collectList m1 l ds) c0 = some w := by
          intro l
          induction l with
          | nil =>
            intro _ ds m1 hm1
            cases ds <;> simpa [collectList] using hm1
          | cons x xs ihl =>
            intro hs ds m1 hm1
            cases ds with
            | nil => simpa [collectList] using hm1
            | cons e es =>
              rw [collectList]
              exact ihl (fun y hy => hs y (by simp [hy])) es _
                (ih x (hs x (by simp)) e m1 hm1)
        exact hlist rs hrs d.children _ (dbgLookup_insertIfAbsent m _ d.offsets c0 w hm)
  exact main (sizeOf c) c (Nat.le_refl _) d m h

/-- Witness for collect_keeps: a map already holding the leaf cell keeps its
entry when the traversal meets the same cell again with different debug
offsets. -/
theorem collect_keeps_witness :
    dbgLookup
      (collect [(Cell.mk [0] [], [(0, ⟨"a", 1, 1⟩)])]
        (Cell.mk [1] [Cell.mk [0] []]) (DbgNode.mk [(0, ⟨"b", 2, 2⟩)] [DbgNode.mk [(0, ⟨"c", 3, 3⟩)] []]))
      (Cell.mk [0] []) = some [(0, ⟨"a", 1, 1⟩)] :=
  collect_keeps _ _ _ _ _ (by simp [dbgLookup])

/-- C10: when write_composite_command returns an error, the writer state is
exactly as it was before the call. -/
theorem write_composite_error_keeps_state (s : CodePage0) (cmd : List Nat)
    (ref : BuilderData) (pos : DbgPos) (dbg : DbgNode) (e : OperationError)
    (h : (write_composite_command s cmd ref pos dbg).1 = .error e) :
    (write_composite_command s cmd ref pos dbg).2 = s := by
  rcases hr : write_composite_command s cmd ref pos dbg with ⟨r1, r2⟩
  rw [hr] at h
  unfold write_composite_command write_composite_overflow at hr
  split at hr
  · split at hr
    · split at hr
      · split at hr
        · simp only [Prod.mk.injEq] at hr
          rw [← hr.1] at h
          exact absurd h (by simp)
        · split at hr
          · split at hr
            · simp only [Prod.mk.injEq] at hr
              rw [← hr.1] at h
              exact absurd h (by simp)
            · simp only [Prod.mk.injEq] at hr
              exact hr.2.symm
          · simp only [Prod.mk.injEq] at hr
            exact hr.2.symm
      · split at hr
        · split at hr
          · simp only [Prod.mk.injEq] at hr
            rw [← hr.1] at h
            exact absurd h (by simp)
          · simp only [Prod.mk.injEq] at hr
            exact hr.2.symm
        · simp only [Prod.mk.injEq] at hr
          exact hr.2.symm
    · split at hr
      · split at hr
        · simp only [Prod.mk.injEq] at hr
          rw [← hr.1] at h
          exact absurd h (by simp)
        · simp only [Prod.mk.injEq] at hr
          exact hr.2.symm
      · simp only [Prod.mk.injEq] at hr
        exact hr.2.symm
  · split at hr
    · split at hr
      · simp only [Prod.mk.injEq] at hr
        rw [← hr.1] at h
        exact absurd h (by simp)
      · simp only [Prod.mk.injEq] at hr
        exact hr.2.symm
    · simp only [Prod.mk.injEq] at hr
      exact hr.2.symm

/-- Witness for write_composite_error_keeps_state: a 128-byte opcode does
not fit even in a fresh builder, and the initial state is left intact. -/
theorem write_composite_error_keeps_state_witness :
    (write_composite_command CodePage0.new (List.replicate 128 0) BuilderData.new
      ⟨"", 0, 0⟩ DbgNode.new).2 = CodePage0.new :=
  write_composite_error_keeps_state _ _ _ _ _ .NotFitInSlice (by
    simp [write_composite_command, write_composite_overflow, CodePage0.new,
      BuilderData.new, BuilderData.references_free, BuilderData.append_raw])



theorem offLookup_insertOffset (k : Nat) (v : DbgPos) (m : List (Nat × DbgPos)) (k0 : Nat) :
    offLookup (insertOffset k v m) k0 = if k0 = k then some v else offLookup m k0 := by
  induction m with
  | nil =>
    rw [insertOffset, offLookup, offLookup]
    by_cases h : k = k0
    · rw [if_pos h, if_pos h.symm]
    · rw [if_neg h, if_neg (fun hh => h hh.symm), offLookup]
  | cons kv rest ih =>
    obtain ⟨k1, v1⟩ := kv
    rw [insertOffset]
    by_cases h1 : k < k1
    · rw [if_pos h1, offLookup]
      by_cases h : k = k0
      · rw [if_pos h, if_pos h.symm]
      · rw [if_neg h, if_neg (fun hh => h hh.symm), offLookup]
    · rw [if_neg h1]
      by_cases h2 : k = k1
      · rw [if_pos h2, offLookup, offLookup]
        by_cases h : k = k0
        · rw [if_pos h, if_pos h.symm]
        · rw [if_neg h, if_neg (fun hh => h hh.symm)]
          rw [← h2]
          rw [if_neg h]
      · rw [if_neg h2, offLookup, offLookup]
        by_cases h3 : k1 = k0
        · have hne : ¬ k0 = k := by omega
          rw [if_pos h3, if_pos h3, if_neg hne]
        · rw [if_neg h3, if_neg h3, ih]

theorem offLookup_append_back (m : List (Nat × DbgPos)) (k : Nat) (v : DbgPos) (k0 : Nat) :
    offLookup (m ++ [(k, v)]) k0 =
      match offLookup m k0 with
      | some w => some w
      | none => if k = k0 then some v else none := by
  induction m with
  | nil =>
    rw [List.nil_append, offLookup, offLookup]
    rfl
  | cons kv rest ih =>
    obtain ⟨k1, v1⟩ := kv
    rw [List.cons_append, offLookup, offLookup]
    by_cases h1 : k1 = k0
    · rw [if_pos h1, if_pos h1]
    · rw [if_neg h1, if_neg h1, ih]

/-- The offset map produced by folding shifted inserts over the entries of
the inlined node: within the shifted range the last matching entry of the
inlined node wins, outside it the base map answers. -/
theorem offLookup_foldl_insert (off : Nat) :
    ∀ (l : List (Nat × DbgPos)) (base : List (Nat × DbgPos)) (k : Nat),
      offLookup (l.foldl (fun acc e => insertOffset (e.1 + off) e.2 acc) base) k =
        if k < off then offLookup base k
        else
          match offLookup l.reverse (k - off) with
          | some v => some v
          | none => offLookup base k := by
  intro l
  induction l with
  | nil =>
    intro base k
    rw [List.foldl_nil, List.reverse_nil]
    by_cases h : k < off
    · rw [if_pos h]
    · rw [if_neg h, offLookup]
  | cons e rest ih =>
    intro base k
    rw [List.foldl_cons, ih, List.reverse_cons, offLookup_append_back]
    by_cases h : k < off
    · rw [if_pos h, if_pos h, offLookup_insertOffset, if_neg (by omega)]
    · rw [if_neg h, if_neg h]
      cases hr : offLookup rest.reverse (k - off) with
      | some w => rfl
      | none =>
        rw [offLookup_insertOffset]
        by_cases h2 : e.1 = k - off
        · rw [if_pos h2, if_pos (by omega)]
        · rw [if_neg h2, if_neg (by omega)]


/-- C4: write_command appends the bytes to the current builder at offset
bits_used and merges the debug node there (offsets shifted, children
appended as siblings); with insufficient capacity a fresh pair is pushed
and the append retried; NotFitInSlice exactly when the bytes exceed even a
fresh builder. -/
theorem write_command_spec (s : CodePage0) (cmd : List Nat) (dbg : DbgNode)
    (last : BuilderData) (dnode : DbgNode)
    (hlast : s.cells.getLast? = some last) (hdn : s.dbg.getLast? = some dnode) :
    (8 * last.data.length + 8 * cmd.length ≤ 1023 →
      write_command s cmd dbg =
        (.ok (), ⟨s.cells.dropLast ++ [⟨last.data ++ cmd, last.refs⟩],
          s.dbg.dropLast ++ [dnode.inline_node last.bits_used dbg]⟩) ∧
      (dnode.inline_node last.bits_used dbg).children = dnode.children ++ dbg.children ∧
      (∀ k, offLookup (dnode.inline_node last.bits_used dbg).offsets k =
        if k < last.bits_used then offLookup dnode.offsets k
        else
          match offLookup dbg.offsets.reverse (k - last.bits_used) with
          | some v => some v
          | none => offLookup dnode.offsets k)) ∧
    (¬ 8 * last.data.length + 8 * cmd.length ≤ 1023 → 8 * cmd.length ≤ 1023 →
      write_command s cmd dbg = (.ok (), ⟨s.cells ++ [⟨cmd, []⟩], s.dbg ++ [dbg]⟩)) ∧
    ((write_command s cmd dbg).1 = .error .NotFitInSlice ↔ 1023 < 8 * cmd.length) := by
  have hA : 8 * last.data.length + 8 * cmd.length ≤ 1023 →
      write_command s cmd dbg =
        (.ok (), ⟨s.cells.dropLast ++ [⟨last.data ++ cmd, last.refs⟩],
          s.dbg.dropLast ++ [dnode.inline_node last.bits_used dbg]⟩) := by
    intro hfit
    rw [write_command, hlast, hdn]
    dsimp only
    simp only [BuilderData.append_raw]
    rw [if_pos hfit]
  have hB : ¬ 8 * last.data.length + 8 * cmd.length ≤ 1023 → 8 * cmd.length ≤ 1023 →
      write_command s cmd dbg = (.ok (), ⟨s.cells ++ [⟨cmd, []⟩], s.dbg ++ [dbg]⟩) := by
    intro hnofit hfresh
    rw [write_command, hlast, hdn]
    dsimp only
    simp only [BuilderData.append_raw]
    rw [if_neg hnofit]
    dsimp only
    rw [write_command_overflow]
    simp only [BuilderData.new, BuilderData.append_raw, List.length_nil, Nat.mul_zero,
      Nat.zero_add]
    rw [if_pos hfresh]
    simp only [List.nil_append]
  have hC : 1023 < 8 * cmd.length →
      write_command s cmd dbg = (.error .NotFitInSlice, s) := by
    intro hbig
    rw [write_command, hlast, hdn]
    dsimp only
    simp only [BuilderData.append_raw]
    rw [if_neg (by omega : ¬ 8 * last.data.length + 8 * cmd.length ≤ 1023)]
    dsimp only
    rw [write_command_overflow]
    simp only [BuilderData.new, BuilderData.append_raw, List.length_nil, Nat.mul_zero,
      Nat.zero_add]
    rw [if_neg (by omega : ¬ 8 * cmd.length ≤ 1023)]
  refine ⟨?_, hB, ?_⟩
  · intro hfit
    refine ⟨hA hfit, rfl, ?_⟩
    intro k
    rw [DbgNode.inline_node]
    rw [DbgNode.offsets_mk]
    exact offLookup_foldl_insert last.bits_used dbg.offsets dnode.offsets k
  · constructor
    · intro herr
      by_contra hnb
      by_cases hfit : 8 * last.data.length + 8 * cmd.length ≤ 1023
      · rw [hA hfit] at herr
        exact absurd herr (by simp)
      · rw [hB hfit (by omega)] at herr
        exact absurd herr (by simp)
    · intro hbig
      rw [hC hbig]

/-- Witness for write_command_spec: writing one byte into a fresh writer
lands it in the single current builder at offset 0. -/
theorem write_command_spec_witness :
    write_command CodePage0.new [119] (DbgNode.fromPos ⟨"f", 1, 1⟩) =
      (.ok (), ⟨[⟨[119], []⟩], [DbgNode.mk [(0, ⟨"f", 1, 1⟩)] []]⟩) := by
  have h := (write_command_spec CodePage0.new [119] (DbgNode.fromPos ⟨"f", 1, 1⟩)
    BuilderData.new DbgNode.new rfl rfl).1 (by norm_num [BuilderData.new])
  rw [h.1]
  rfl

/-- C3: write_composite_command emits the opcode and the child reference
into the current builder exactly when the builder keeps two free reference
slots and has bit room for the opcode; otherwise a fresh pair is pushed
and the emission happens there; NotFitInSlice exactly when the opcode does
not fit even a fresh builder (one reference always fits a fresh one). -/
theorem write_composite_command_spec (s : CodePage0) (cmd : List Nat)
    (ref : BuilderData) (pos : DbgPos) (dbg : DbgNode)
    (last : BuilderData) (dnode : DbgNode)
    (hlast : s.cells.getLast? = some last) (hdn : s.dbg.getLast? = some dnode) :
    ((1 < last.references_free ∧ 8 * last.data.length + 8 * cmd.length ≤ 1023) →
      write_composite_command s cmd ref pos dbg =
        (.ok (), ⟨s.cells.dropLast ++ [⟨last.data ++ cmd, last.refs ++ [ref.toCell]⟩],
          s.dbg.dropLast ++
            [dbg.children.foldl (fun d c => d.append_node c)
              ((dnode.append last.bits_used pos).inline_node
                (last.bits_used + 8 * cmd.length) (DbgNode.mk dbg.offsets []))]⟩)) ∧
    (¬ (1 < last.references_free ∧ 8 * last.data.length + 8 * cmd.length ≤ 1023) →
      8 * cmd.length ≤ 1023 →
      write_composite_command s cmd ref pos dbg =
        (.ok (), ⟨s.cells ++ [⟨cmd, [ref.toCell]⟩],
          s.dbg ++ [DbgNode.mk [(0, pos)] [dbg]]⟩)) ∧
    ((write_composite_command s cmd ref pos dbg).1 = .error .NotFitInSlice ↔
      1023 < 8 * cmd.length) := by
  have hFresh : 8 * cmd.length ≤ 1023 →
      write_composite_overflow s cmd ref pos dbg =
        (.ok (), ⟨s.cells ++ [⟨cmd, [ref.toCell]⟩],
          s.dbg ++ [DbgNode.mk [(0, pos)] [dbg]]⟩) := by
    intro hfresh
    rw [write_composite_overflow]
    simp only [BuilderData.new, BuilderData.append_raw, List.length_nil, Nat.mul_zero,
      Nat.zero_add]
    rw [if_pos hfresh]
    dsimp only
    simp only [BuilderData.checked_append_reference, List.length_nil]
    rw [if_pos (by norm_num : (0 : Nat) < 4)]
    dsimp only
    simp only [List.nil_append]
    rfl
  have hFreshErr : 1023 < 8 * cmd.length →
      write_composite_overflow s cmd ref pos dbg = (.error .NotFitInSlice, s) := by
    intro hbig
    rw [write_composite_overflow]
    simp only [BuilderData.new, BuilderData.append_raw, List.length_nil, Nat.mul_zero,
      Nat.zero_add]
    rw [if_neg (by omega : ¬ 8 * cmd.length ≤ 1023)]
  have hA : (1 < last.references_free ∧ 8 * last.data.length + 8 * cmd.length ≤ 1023) →
      write_composite_command s cmd ref pos dbg =
        (.ok (), ⟨s.cells.dropLast ++ [⟨last.data ++ cmd, last.refs ++ [ref.toCell]⟩],
          s.dbg.dropLast ++
            [dbg.children.foldl (fun d c => d.append_node c)
              ((dnode.append last.bits_used pos).inline_node
                (last.bits_used + 8 * cmd.length) (DbgNode.mk dbg.offsets []))]⟩) := by
    intro ⟨hfree, hfit⟩
    rw [write_composite_command, hlast, hdn]
    dsimp only
    rw [if_pos hfree]
    simp only [BuilderData.append_raw]
    rw [if_pos hfit]
    dsimp only
    have hlen : last.refs.length < 4 := by
      simp only [BuilderData.references_free] at hfree
      omega
    simp only [BuilderData.checked_append_reference]
    rw [if_pos hlen]
  have hB : ¬ (1 < last.references_free ∧ 8 * last.data.length + 8 * cmd.length ≤ 1023) →
      8 * cmd.length ≤ 1023 →
      write_composite_command s cmd ref pos dbg =
        (.ok (), ⟨s.cells ++ [⟨cmd, [ref.toCell]⟩],
          s.dbg ++ [DbgNode.mk [(0, pos)] [dbg]]⟩) := by
    intro hnot hfresh
    rw [write_composite_command, hlast, hdn]
    dsimp only
    by_cases hfree : 1 < last.references_free
    · rw [if_pos hfree]
      have hnofit : ¬ 8 * last.data.length + 8 * cmd.length ≤ 1023 := by
        intro hh
        exact hnot ⟨hfree, hh⟩
      simp only [BuilderData.append_raw]
      rw [if_neg hnofit]
      exact hFresh hfresh
    · rw [if_neg hfree]
      exact hFresh hfresh
  have hC : 1023 < 8 * cmd.length →
      write_composite_command s cmd ref pos dbg = (.error .NotFitInSlice, s) := by
    intro hbig
    rw [write_composite_command, hlast, hdn]
    dsimp only
    by_cases hfree : 1 < last.references_free
    · rw [if_pos hfree]
      simp only [BuilderData.append_raw]
      rw [if_neg (by omega : ¬ 8 * last.data.length + 8 * cmd.length ≤ 1023)]
      exact hFreshErr hbig
    · rw [if_neg hfree]
      exact hFreshErr hbig
  refine ⟨hA, hB, ?_⟩
  constructor
  · intro herr
    by_contra hnb
    by_cases hP : 1 < last.references_free ∧ 8 * last.data.length + 8 * cmd.length ≤ 1023
    · rw [hA hP] at herr
      exact absurd herr (by simp)
    · rw [hB hP (by omega)] at herr
      exact absurd herr (by simp)
  · intro hbig
    rw [hC hbig]

/-- Witness for write_composite_command_spec: a two-byte composite opcode
with an empty child goes into the fresh writer's current builder. -/
theorem write_composite_command_spec_witness :
    write_composite_command CodePage0.new [219, 60] (BuilderData.mk [0] [])
      ⟨"f", 1, 1⟩ (DbgNode.mk [] [DbgNode.mk [(0, ⟨"g", 2, 2⟩)] []]) =
      (.ok (), ⟨[⟨[219, 60], [Cell.mk [0] []]⟩],
        [DbgNode.mk [(0, ⟨"f", 1, 1⟩)] [DbgNode.mk [(0, ⟨"g", 2, 2⟩)] []]]⟩) := by
  have h := (write_composite_command_spec CodePage0.new [219, 60] (BuilderData.mk [0] [])
    ⟨"f", 1, 1⟩ (DbgNode.mk [] [DbgNode.mk [(0, ⟨"g", 2, 2⟩)] []])
    BuilderData.new DbgNode.new rfl rfl).1
    (by constructor <;> norm_num [BuilderData.new, BuilderData.references_free])
  rw [h]
  rfl


/-- finalizeAux is the fold of the pop-append loop. -/
theorem finalizeAux_eq_foldl :
    ∀ (cs : List BuilderData) (ds : List DbgNode) (cursor : BuilderData) (dn : DbgNode),
      cs.length = ds.length →
      finalizeAux cs ds cursor dn =
        (List.foldl (fun cur c => BuilderData.append_reference c cur) cursor cs,
          List.foldl (fun cur d => DbgNode.append_node d cur) dn ds) := by
  intro cs
  induction cs with
  | nil =>
    intro ds cursor dn hlen
    cases ds with
    | nil => rfl
    | cons e es => simp at hlen
  | cons c cs ih =>
    intro ds cursor dn hlen
    cases ds with
    | nil => simp at hlen
    | cons e es =>
      rw [finalizeAux, List.foldl_cons, List.foldl_cons]
      exact ih es _ _ (by simpa using hlen)

/-- Peeling the front pair off finalize: the first builder receives the
chain of the rest as its last reference, the first node the chained node
as its last child. -/
theorem finalize_cons (l : List BuilderData) (dl : List DbgNode) (b : BuilderData)
    (d : DbgNode) (hl : l ≠ []) (hlen : l.length = dl.length) :
    CodePage0.finalize ⟨b :: l, d :: dl⟩ =
      (b.append_reference (CodePage0.finalize ⟨l, dl⟩).1,
        d.append_node (CodePage0.finalize ⟨l, dl⟩).2) := by
  obtain ⟨c0, cs, hc0⟩ : ∃ c0 cs, l.reverse = c0 :: cs := by
    cases hh : l.reverse with
    | nil => exact absurd (by simpa using congrArg List.reverse hh) hl
    | cons c0 cs => exact ⟨c0, cs, rfl⟩
  obtain ⟨d0, ds0, hd0⟩ : ∃ d0 ds0, dl.reverse = d0 :: ds0 := by
    cases hh : dl.reverse with
    | nil =>
      have h1 : dl.length = 0 := by simpa using congrArg List.length hh
      have h2 : l.length = cs.length + 1 := by simpa using congrArg List.length hc0
      omega
    | cons d0 ds0 => exact ⟨d0, ds0, rfl⟩
  have hlen2 : cs.length = ds0.length := by
    have h1 : l.length = cs.length + 1 := by simpa using congrArg List.length hc0
    have h2 : dl.length = ds0.length + 1 := by simpa using congrArg List.length hd0
    omega
  have hrc : (b :: l).reverse = c0 :: (cs ++ [b]) := by
    rw [List.reverse_cons, hc0, List.cons_append]
  have hrd : (d :: dl).reverse = d0 :: (ds0 ++ [d]) := by
    rw [List.reverse_cons, hd0, List.cons_append]
  show (match (b :: l).reverse, (d :: dl).reverse with
    | c :: cs, d :: ds => finalizeAux cs ds c d
    | _, _ => (BuilderData.new, DbgNode.new)) = _
  rw [hrc, hrd]
  dsimp only
  have hgoal2 : (CodePage0.finalize ⟨l, dl⟩) = finalizeAux cs ds0 c0 d0 := by
    show (match l.reverse, dl.reverse with
      | c :: cs, d :: ds => finalizeAux cs ds c d
      | _, _ => (BuilderData.new, DbgNode.new)) = _
    rw [hc0, hd0]
  rw [hgoal2]
  rw [finalizeAux_eq_foldl (cs ++ [b]) (ds0 ++ [d]) c0 d0 (by simp [hlen2]),
    finalizeAux_eq_foldl cs ds0 c0 d0 hlen2,
    List.foldl_append, List.foldl_append, List.foldl_cons, List.foldl_nil,
    List.foldl_cons, List.foldl_nil]

/-- The spine stream of a front-to-back chain is the concatenation of the
payloads in emission order. -/
theorem spineCells_chainRefs :
    ∀ (bs : List BuilderData) (b : BuilderData),
      spineCells bs.length (chainRefs b bs).toCell =
        ((b :: bs).map BuilderData.data).flatten := by
  intro bs
  induction bs with
  | nil =>
    intro b
    simp [spineCells, chainRefs, BuilderData.toCell, Cell.data]
  | cons x xs ih =>
    intro b
    rw [chainRefs, List.length_cons, spineCells]
    have hlast : (b.append_reference (chainRefs x xs)).toCell.refs.getLast? =
        some (chainRefs x xs).toCell := by
      simp [BuilderData.append_reference, BuilderData.toCell, Cell.refs]
    rw [hlast]
    have hdata : (b.append_reference (chainRefs x xs)).toCell.data = b.data := rfl
    dsimp only
    rw [hdata, ih x]
    simp

/-- C5: finalize chains the pairs from the back, ending in a single pair in
which each earlier builder holds the chain of the later ones as its last
reference and each earlier node holds the chained node as its last child;
concatenating the payloads along the spine reproduces the emission-order
byte stream. -/
theorem finalize_spec (s : CodePage0) (b : BuilderData) (bs : List BuilderData)
    (d : DbgNode) (ds : List DbgNode)
    (hc : s.cells = b :: bs) (hd : s.dbg = d :: ds) (hlen : bs.length = ds.length) :
    s.finalize = (chainRefs b bs, chainDbg d ds) ∧
    spineCells bs.length (chainRefs b bs).toCell = (s.cells.map BuilderData.data).flatten := by
  constructor
  · have hs : s = ⟨b :: bs, d :: ds⟩ := by
      cases s
      simp_all
    rw [hs]
    clear hs hc hd
    induction bs generalizing b d ds with
    | nil =>
      cases ds with
      | nil => rfl
      | cons e es => simp at hlen
    | cons x xs ih =>
      cases ds with
      | nil => simp at hlen
      | cons e es =>
        have hlen2 : xs.length = es.length := by simpa using hlen
        rw [finalize_cons (x :: xs) (e :: es) b d (by simp) (by simpa using hlen)]
        rw [ih x e es hlen2]
        rw [chainRefs, chainDbg]
  · rw [hc]
    exact spineCells_chainRefs bs b

/-- Witness for finalize_spec: two pairs collapse into one builder whose
spine stream is the two payloads in order. -/
theorem finalize_spec_witness :
    CodePage0.finalize ⟨[⟨[1], []⟩, ⟨[2], []⟩], [DbgNode.new, DbgNode.new]⟩ =
      (chainRefs ⟨[1], []⟩ [⟨[2], []⟩], chainDbg DbgNode.new [DbgNode.new]) ∧
    spineCells 1 (chainRefs (⟨[1], []⟩ : BuilderData) [⟨[2], []⟩]).toCell = [1, 2] := by
  have h := finalize_spec ⟨[⟨[1], []⟩, ⟨[2], []⟩], [DbgNode.new, DbgNode.new]⟩
    ⟨[1], []⟩ [⟨[2], []⟩] DbgNode.new [DbgNode.new] rfl rfl rfl
  refine ⟨h.1, ?_⟩
  have h2 := h.2
  simpa using h2


set_option maxRecDepth 100000 in
/-- C6 failing input: on the fresh-builder path the node paired with the
reference cell is the incoming wrapper (children.len() = 1) although the
reference cell has no references, so invariant 1 fails at depth three
while it still holds at depth two; the last reference of the root holds
the composite cell whose single reference has zero references, yet the
corresponding debug node has one child. -/
theorem composite_fresh_breaks_pairing :
    cellDbgWfFuel 3 (CodePage0.finalize compositeFreshTrace).1.toCell
      (CodePage0.finalize compositeFreshTrace).2 = false ∧
    cellDbgWfFuel 2 (CodePage0.finalize compositeFreshTrace).1.toCell
      (CodePage0.finalize compositeFreshTrace).2 = true ∧
    ((CodePage0.finalize compositeFreshTrace).1.toCell.refs.getLast?.map
      (fun c2 => c2.refs.map Cell.references_count)) = some [0] ∧
    ((CodePage0.finalize compositeFreshTrace).2.children.getLast?.map
      (fun nd => nd.children.map (fun w => w.children.length))) = some [1] := by
  decide

set_option maxRecDepth 100000 in
set_option exponentiation.threshold 400 in
/-- The modelled encoder reproduces the byte strings pinned down by the
repository's tests in src/tests/test_convert.rs, and the embedded decoder
reads them back. -/
theorem codec_matches_repository_tests :
    to_big_endian_octet_string 0 = some [0x00, 0x00, 0x00] ∧
    to_big_endian_octet_string 12345678 = some [0x08, 0xBC, 0x61, 0x4E] ∧
    to_big_endian_octet_string (-12345678) = some [0x0F, 0x43, 0x9E, 0xB2] ∧
    to_big_endian_octet_string 1234567 = some [0x08, 0x12, 0xD6, 0x87] ∧
    to_big_endian_octet_string (-1234567) = some [0x0F, 0xED, 0x29, 0x79] ∧
    to_big_endian_octet_string 65535 = some [0x00, 0xFF, 0xFF] ∧
    to_big_endian_octet_string 65536 = some [0x01, 0x00, 0x00] ∧
    to_big_endian_octet_string 131072 = some [0x02, 0x00, 0x00] ∧
    to_big_endian_octet_string 262144 = some [0x08, 0x04, 0x00, 0x00] ∧
    to_big_endian_octet_string 4294967296 = some [0x11, 0x00, 0x00, 0x00, 0x00] ∧
    to_big_endian_octet_string ((2 : Int) ^ 256 - 1) = some (0xF0 :: List.replicate 32 0xFF) ∧
    to_big_endian_octet_string (-((2 : Int) ^ 256 - 1)) =
      some (0xF7 :: (List.replicate 31 0x00 ++ [0x01])) ∧
    to_big_endian_octet_string (-((2 : Int) ^ 256)) = some (0xF7 :: List.replicate 32 0x00) ∧
    from_big_endian_octet_stream [0x0F, 0x43, 0x9E, 0xB2] = some (-12345678) ∧
    from_big_endian_octet_stream [0x08, 0xBC, 0x61, 0x4E] = some 12345678 ∧
    from_big_endian_octet_stream (0xF7 :: List.replicate 32 0x00) = some (-((2 : Int) ^ 256)) := by
  refine ⟨?_, ?_, ?_, ?_, ?_, ?_, ?_, ?_, ?_, ?_, ?_, ?_, ?_, ?_, ?_, ?_⟩ <;> decide

end Asm
